import Mathlib

/-!
Verification of `core/ledger/kvledger/txmgmt/validator/valinternal/tx_ops_preparation.go`
(transaction-operation preparation for the Fabric ledger validator).

Shallow embedding conventions:
* Go byte slices and Go strings are both byte sequences; we model both as `List Nat`
  (`Bytes`). A field that can be a nil slice/pointer is an `Option`.
* The external collaborators (preceding-updates index `PubAndHashUpdates`, persisted
  state reader `privacyenabledstate.DB`, metadata codec `storageutil.SerializeMetadata`)
  are modelled as records of functions / function parameters; fallible Go calls
  returning `(x, error)` become `Except Err (Option _)`.
* The Go map `txOps` (`map[compositeKey]*keyOps`) is modelled as an association list
  with structurally-unique keys; Go's arbitrary map-iteration order is captured by
  proving the resolution pass invariant under permutation of the entry list.
-/

/-- Go byte slices (and Go strings, which are byte strings) as lists of bytes. -/
abbrev Bytes : Type := List Nat

/-- Go `string(b)` conversion applied to a byte slice (src lines 73, 83):
the identity on the underlying bytes. -/
def stringOfBytes (b : Bytes) : Bytes := b

/-- Go `[]byte(s)` conversion applied to a string (src line 135):
the identity on the underlying bytes. -/
def bytesOfString (s : Bytes) : Bytes := s

/-- Errors surfaced by the collaborators: storage read failures and
metadata-encoding failures. -/
inductive Err where
  | storage : Err
  | encoding : Err
deriving DecidableEq

/-- `version.Height` (external); carried around but never inspected by
`prepareTxOps`. -/
structure Height where
  BlockNum : Nat
  TxNum : Nat
deriving DecidableEq

/-- `statedb.VersionedValue` (external): value, metadata and a version marker as
read from a lookup source. A nil Go pointer is `Option.none` one level up. -/
structure VersionedValue where
  Value : Option Bytes
  Metadata : Option Bytes
  Version : Height
deriving DecidableEq

/-- The public part of the preceding-updates index:
`precedingUpdates.PubUpdates.Get(ns, key)` returning a `*statedb.VersionedValue`
(nil = absent). -/
structure PubUpdateBatch where
  Get : Bytes → Bytes → Option VersionedValue

/-- The hashed (private-collection) part of the preceding-updates index:
`precedingUpdates.HashUpdates.Get(ns, coll, keyHash)`. -/
structure HashedUpdateBatch where
  Get : Bytes → Bytes → Bytes → Option VersionedValue

/-- `valinternal.PubAndHashUpdates` (external to src): the preceding-updates index,
read through its two accessors. -/
structure PubAndHashUpdates where
  PubUpdates : PubUpdateBatch
  HashUpdates : HashedUpdateBatch

/-- `privacyenabledstate.DB` (external): the persisted state reader. Both reads can
fail with a storage error. -/
structure DB where
  GetState : Bytes → Bytes → Except Err (Option VersionedValue)
  GetValueHash : Bytes → Bytes → Bytes → Except Err (Option VersionedValue)

/-- `kvrwset.KVWrite`: a public key write `{key, value, isDelete}`. -/
structure KVWrite where
  Key : Bytes
  Value : Option Bytes
  IsDelete : Bool
deriving DecidableEq

/-- `kvrwset.KVMetadataEntry`: one named metadata entry. -/
structure KVMetadataEntry where
  Name : Bytes
  Value : Bytes
deriving DecidableEq

/-- `kvrwset.KVMetadataWrite`: a metadata write `{key, entries}`; `Entries = none`
models a nil entries slice. -/
structure KVMetadataWrite where
  Key : Bytes
  Entries : Option (List KVMetadataEntry)
deriving DecidableEq

/-- `kvrwset.KVWriteHash`: a hashed (private-collection) key write. -/
structure KVWriteHash where
  KeyHash : Bytes
  ValueHash : Option Bytes
  IsDelete : Bool
deriving DecidableEq

/-- `kvrwset.KVMetadataWriteHash`: a hashed metadata write. -/
structure KVMetadataWriteHash where
  KeyHash : Bytes
  Entries : Option (List KVMetadataEntry)
deriving DecidableEq

/-- `kvrwset.HashedRWSet`, restricted to the fields `applyTxRwset` reads. -/
structure HashedRwSet where
  HashedWrites : List KVWriteHash
  MetadataWrites : List KVMetadataWriteHash
deriving DecidableEq

/-- `rwsetutil.CollHashedRwSet`. -/
structure CollHashedRwSet where
  CollectionName : Bytes
  HashedRwSet : HashedRwSet
deriving DecidableEq

/-- `kvrwset.KVRWSet`, restricted to the fields `applyTxRwset` reads. -/
structure KVRWSet where
  Writes : List KVWrite
  MetadataWrites : List KVMetadataWrite
deriving DecidableEq

/-- `rwsetutil.NsRwSet`. -/
structure NsRwSet where
  NameSpace : Bytes
  KvRwSet : KVRWSet
  CollHashedRwSets : List CollHashedRwSet
deriving DecidableEq

/-- `rwsetutil.TxRwSet`: the transaction's structured write set. -/
structure TxRwSet where
  NsRwSets : List NsRwSet
deriving DecidableEq

/-- `storageutil.SerializeMetadata` (external metadata codec), modelled as a
parameter: serializes metadata entries or fails with an encoding error. -/
abbrev metadataCodec : Type := List KVMetadataEntry → Except Err Bytes

/-- `valinternal.compositeKey`: identity tuple `(ns, coll, key)`; `coll = []`
denotes public state. -/
structure compositeKey where
  ns : Bytes
  coll : Bytes
  key : Bytes
deriving DecidableEq

/-- Modelled from the spec: the `keyOps` record (its definition is not under `src/`).
Per-key pending mutation with flags distinguishing which fields the transaction
touched: value upserted, metadata updated, metadata deleted, key deleted; plus the
pending `value` and `metadata` bytes (nil slices are `none`). -/
structure keyOps where
  flagUpsertVal : Bool
  flagMetadataUpdate : Bool
  flagMetadataDelete : Bool
  flagKeyDelete : Bool
  value : Option Bytes
  metadata : Option Bytes
deriving DecidableEq

/-- The zero `keyOps` created by `getOrCreateKeyEntry` for a fresh key. -/
def keyOps.empty : keyOps :=
  { flagUpsertVal := false, flagMetadataUpdate := false, flagMetadataDelete := false,
    flagKeyDelete := false, value := none, metadata := none }

/-- Modelled from the spec: a key-operation marked as a delete. -/
def keyOps.isDelete (op : keyOps) : Bool := op.flagKeyDelete

/-- Modelled from the spec: the entry "already has both value and metadata set by the
transaction itself" — value upserted and metadata either updated or explicitly
cleared. -/
def keyOps.isUpsertAndMetadataUpdate (op : keyOps) : Bool :=
  op.flagUpsertVal && (op.flagMetadataUpdate || op.flagMetadataDelete)

/-- Modelled from the spec: a value-only entry — "value touched, metadata untouched
by the transaction, and not already marked `metadataDelete`". -/
def keyOps.isOnlyUpsert (op : keyOps) : Bool :=
  op.flagUpsertVal && !op.flagMetadataUpdate && !op.flagMetadataDelete && !op.flagKeyDelete

/-- `valinternal.txOps` (`map[compositeKey]*keyOps`), as an association list with
structurally-unique keys. -/
abbrev txOps : Type := List (compositeKey × keyOps)

/-- Go map read `txops[ck]`. -/
def lookupKey : txOps → compositeKey → Option keyOps
  | [], _ => none
  | (k, op) :: rest, ck => if k = ck then some op else lookupKey rest ck

/-- The map's keys are pairwise distinct (automatic for a Go map; an invariant of
the association-list model, preserved by `txOps.update`). -/
def keysNodup (t : txOps) : Prop := (t.map Prod.fst).Nodup

instance (t : txOps) : Decidable (keysNodup t) := by unfold keysNodup; infer_instance

/-- `getOrCreateKeyEntry` followed by mutation of the returned `*keyOps`: update the
entry for `k` in place, creating it from `keyOps.empty` when absent. -/
def txOps.update : txOps → compositeKey → (keyOps → keyOps) → txOps
  | [], k, f => [(k, f keyOps.empty)]
  | (k', op) :: rest, k, f =>
    if k' = k then (k', f op) :: rest else (k', op) :: txOps.update rest k f

/-- Modelled from the spec: `txops.upsert(k, val)` "sets value, clears delete flag,
marks value touched, leaves any prior metadata from the same transaction intact". -/
def txOps.upsert (t : txOps) (k : compositeKey) (val : Option Bytes) : txOps :=
  txOps.update t k fun op =>
    { op with flagUpsertVal := true, flagKeyDelete := false, value := val }

/-- Modelled from the spec: `txops.delete(k)` "marks delete, discards value/metadata,
suppresses any later merge step for that key". -/
def txOps.delete (t : txOps) (k : compositeKey) : txOps :=
  txOps.update t k fun _ => { keyOps.empty with flagKeyDelete := true }

/-- Modelled from the spec: `txops.metadataUpdate(k, bytes)` "sets metadata, marks
metadata touched". -/
def txOps.metadataUpdate (t : txOps) (k : compositeKey) (md : Bytes) : txOps :=
  txOps.update t k fun op => { op with flagMetadataUpdate := true, metadata := some md }

/-- Modelled from the spec: `txops.metadataDelete(k)` "explicitly records metadata
cleared (distinct from metadata untouched)". -/
def txOps.metadataDelete (t : txOps) (k : compositeKey) : txOps :=
  txOps.update t k fun op => { op with flagMetadataDelete := true, metadata := none }

/-- `applyKVWrite` (src lines 94-100): records upsertion/deletion of a kvwrite. -/
def applyKVWrite (txops : txOps) (ns coll : Bytes) (kvWrite : KVWrite) : txOps :=
  if kvWrite.IsDelete then
    txOps.delete txops ⟨ns, coll, kvWrite.Key⟩
  else
    txOps.upsert txops ⟨ns, coll, kvWrite.Key⟩ kvWrite.Value

/-- `applyMetadata` (src lines 103-114): records updatation/deletion of a
metadataWrite; fails when the metadata codec fails, leaving the map untouched. -/
def applyMetadata (serializeMetadata : metadataCodec) (txops : txOps) (ns coll : Bytes)
    (metadataWrite : KVMetadataWrite) : Except Err txOps :=
  match metadataWrite.Entries with
  | none => .ok (txOps.metadataDelete txops ⟨ns, coll, metadataWrite.Key⟩)
  | some entries =>
    match serializeMetadata entries with
    | .error e => .error e
    | .ok metadataBytes =>
      .ok (txOps.metadataUpdate txops ⟨ns, coll, metadataWrite.Key⟩ metadataBytes)

/-- A call site that ignores the error returned by a `txOps`-mutating call, as the
Go code does at src lines 21, 64 and 81: on failure no mutation happened, so the
receiver keeps its previous contents. -/
def discardError (txops : txOps) (r : Except Err txOps) : txOps :=
  match r with
  | .ok t => t
  | .error _ => txops

/-- `applyTxRwset` (src lines 57-91): records the upsertion/deletion of kv and
metadata writes of a txrwset. Note: the errors returned by `applyMetadata` at the
call sites (src lines 64, 81) are discarded, and the function always returns a nil
error (src line 90). -/
def applyTxRwset (serializeMetadata : metadataCodec) (txops : txOps) (rwset : TxRwSet) :
    Except Err txOps :=
  .ok <| List.foldl
    (fun txops nsRWSet =>
      let ns := nsRWSet.NameSpace
      let txops := List.foldl (fun t w => applyKVWrite t ns [] w)
        txops nsRWSet.KvRwSet.Writes
      let txops := List.foldl
        (fun t w => discardError t (applyMetadata serializeMetadata t ns [] w))
        txops nsRWSet.KvRwSet.MetadataWrites
      List.foldl
        (fun txops collHashRWset =>
          let coll := collHashRWset.CollectionName
          let txops := List.foldl
            (fun t hw => applyKVWrite t ns coll
              ⟨stringOfBytes hw.KeyHash, hw.ValueHash, hw.IsDelete⟩)
            txops collHashRWset.HashedRwSet.HashedWrites
          List.foldl
            (fun t mw => discardError t (applyMetadata serializeMetadata t ns coll
              ⟨stringOfBytes mw.KeyHash, mw.Entries⟩))
            txops collHashRWset.HashedRwSet.MetadataWrites)
        txops nsRWSet.CollHashedRwSets)
    txops rwset.NsRwSets

/-- `retrieveLatestState` (src lines 121-138): the preceding-updates index is read
first; only on absence is the persisted state reader consulted. -/
def retrieveLatestState (ns coll key : Bytes) (precedingUpdates : PubAndHashUpdates)
    (db : DB) : Except Err (Option VersionedValue) :=
  if coll = [] then
    match precedingUpdates.PubUpdates.Get ns key with
    | some vv => .ok (some vv)
    | none => db.GetState ns key
  else
    match precedingUpdates.HashUpdates.Get ns coll key with
    | some vv => .ok (some vv)
    | none => db.GetValueHash ns coll (bytesOfString key)

/-- The body of the resolution loop of `prepareTxOps` (src lines 26-49) for a single
map entry: `.ok (some op)` keeps (a possibly updated) entry, `.ok none` removes the
entry from the map, `.error e` aborts the whole preparation. -/
def resolveKeyOp (precedingUpdates : PubAndHashUpdates) (db : DB) (ck : compositeKey)
    (keyop : keyOps) : Except Err (Option keyOps) :=
  if keyOps.isDelete keyop || keyOps.isUpsertAndMetadataUpdate keyop then
    .ok (some keyop)
  else
    match retrieveLatestState ck.ns ck.coll ck.key precedingUpdates db with
    | .error e => .error e
    | .ok latestVal =>
      if keyOps.isOnlyUpsert keyop then
        match latestVal with
        | some lv => .ok (some { keyop with metadata := lv.Metadata })
        | none => .ok (some keyop)
      else
        match latestVal with
        | some lv => .ok (some { keyop with value := lv.Value })
        | none => .ok none

/-- The resolution loop of `prepareTxOps` (src lines 23-50) over the map's entries in
some iteration order: each entry is resolved independently; an error aborts with no
map. -/
def resolveAll (precedingUpdates : PubAndHashUpdates) (db : DB) : txOps → Except Err txOps
  | [] => .ok []
  | (ck, keyop) :: rest =>
    match resolveKeyOp precedingUpdates db ck keyop with
    | .error e => .error e
    | .ok none => resolveAll precedingUpdates db rest
    | .ok (some keyop') =>
      match resolveAll precedingUpdates db rest with
      | .error e => .error e
      | .ok rest' => .ok ((ck, keyop') :: rest')

/-- The map as populated by `prepareTxOps` at src line 21: `txops.applyTxRwset(rwset)`
with the returned error discarded. -/
def populatedTxOps (serializeMetadata : metadataCodec) (rwset : TxRwSet) : txOps :=
  discardError [] (applyTxRwset serializeMetadata [] rwset)

/-- `prepareTxOps` (src lines 18-53): populate the map from the write set (discarding
`applyTxRwset`'s error, as the source does), then resolve every entry. -/
def prepareTxOps (serializeMetadata : metadataCodec) (rwset : TxRwSet) (txht : Height)
    (precedingUpdates : PubAndHashUpdates) (db : DB) : Except Err txOps :=
  resolveAll precedingUpdates db (populatedTxOps serializeMetadata rwset)

/-- Whether an `Except` result is a success (Go: the returned error is nil). -/
def exceptIsOk : Except Err txOps → Bool
  | .ok _ => true
  | .error _ => false

/-! ### Concrete collaborator instances and transaction fixtures -/

def nsA : Bytes := [1]

def collA : Bytes := [2]

def keyA : Bytes := [3]

def ckPub : compositeKey := ⟨nsA, [], keyA⟩

def ckHash : compositeKey := ⟨nsA, collA, keyA⟩

def ht0 : Height := ⟨0, 0⟩

def vvPre : VersionedValue := ⟨some [10], some [11], ht0⟩

def vvDb : VersionedValue := ⟨some [20], some [21], ht0⟩

/-- A deletion recorded by an earlier transaction: a versioned value with nil value. -/
def vvDel : VersionedValue := ⟨none, none, ht0⟩

def puEmpty : PubAndHashUpdates := ⟨⟨fun _ _ => none⟩, ⟨fun _ _ _ => none⟩⟩

def puFull : PubAndHashUpdates := ⟨⟨fun _ _ => some vvPre⟩, ⟨fun _ _ _ => some vvPre⟩⟩

def puDel : PubAndHashUpdates := ⟨⟨fun _ _ => some vvDel⟩, ⟨fun _ _ _ => some vvDel⟩⟩

def dbOk : DB := ⟨fun _ _ => .ok (some vvDb), fun _ _ _ => .ok (some vvDb)⟩

def dbEmpty : DB := ⟨fun _ _ => .ok none, fun _ _ _ => .ok none⟩

def dbErr : DB := ⟨fun _ _ => .error .storage, fun _ _ _ => .error .storage⟩

def codecOk : metadataCodec := fun _ => .ok [40]

def codecFail : metadataCodec := fun _ => .error .encoding

def opMetaOnly : keyOps := ⟨false, true, false, false, none, some [30]⟩

def opValueOnly : keyOps := ⟨true, false, false, false, some [31], none⟩

def opDelete : keyOps := { keyOps.empty with flagKeyDelete := true }

/-- The entry produced by a single public metadata write under `codecOk`. -/
def opMD : keyOps := { keyOps.empty with flagMetadataUpdate := true, metadata := some [40] }

def entryA : KVMetadataEntry := ⟨[50], [51]⟩

/-- A write set holding exactly one public metadata write. -/
def rwsetMetaOnly : TxRwSet := ⟨[⟨nsA, ⟨[], [⟨keyA, some [entryA]⟩]⟩, []⟩]⟩

def opValueOnlyRes : keyOps := { opValueOnly with metadata := vvDb.Metadata }

def opMetaOnlyRes : keyOps := { opMetaOnly with value := vvDb.Value }

def lA : txOps := [(ckPub, opValueOnly), (ckHash, opMetaOnly)]

def lB : txOps := [(ckHash, opMetaOnly), (ckPub, opValueOnly)]

def mA : txOps := [(ckPub, opValueOnlyRes), (ckHash, opMetaOnlyRes)]

def mB : txOps := [(ckHash, opMetaOnlyRes), (ckPub, opValueOnlyRes)]

def outValueOnly : txOps := [(ckPub, opValueOnlyRes)]

/-! ### Helper lemmas about the association-list model -/

lemma resolveAll_nil (pu : PubAndHashUpdates) (db : DB) : resolveAll pu db [] = .ok [] := rfl

lemma resolveAll_cons_error {pu : PubAndHashUpdates} {db : DB} {ck : compositeKey}
    {kop : keyOps} {e : Err} (rest : txOps)
    (h : resolveKeyOp pu db ck kop = .error e) :
    resolveAll pu db ((ck, kop) :: rest) = .error e := by
  simp only [resolveAll, h]

lemma resolveAll_cons_none {pu : PubAndHashUpdates} {db : DB} {ck : compositeKey}
    {kop : keyOps} (rest : txOps)
    (h : resolveKeyOp pu db ck kop = .ok none) :
    resolveAll pu db ((ck, kop) :: rest) = resolveAll pu db rest := by
  simp only [resolveAll, h]

lemma resolveAll_cons_some {pu : PubAndHashUpdates} {db : DB} {ck : compositeKey}
    {kop kop' : keyOps} (rest : txOps)
    (h : resolveKeyOp pu db ck kop = .ok (some kop')) :
    resolveAll pu db ((ck, kop) :: rest) =
      match resolveAll pu db rest with
      | .error e => .error e
      | .ok rest' => .ok ((ck, kop') :: rest') := by
  simp only [resolveAll, h]

lemma lookupKey_cons (k : compositeKey) (op : keyOps) (rest : txOps) (ck : compositeKey) :
    lookupKey ((k, op) :: rest) ck = if k = ck then some op else lookupKey rest ck := rfl

lemma lookupKey_eq_none_iff : ∀ (t : txOps) (ck : compositeKey),
    lookupKey t ck = none ↔ ck ∉ t.map Prod.fst
  | [], ck => by simp [lookupKey]
  | (k, op) :: rest, ck => by
    rw [lookupKey_cons, List.map_cons]
    by_cases h : k = ck
    · subst h
      simp
    · rw [if_neg h, lookupKey_eq_none_iff rest ck, List.mem_cons]
      constructor
      · intro hn hmem
        rcases hmem with hh | hh
        · exact h hh.symm
        · exact hn hh
      · intro hn hmem
        exact hn (Or.inr hmem)

lemma keysNodup_cons {k : compositeKey} {op : keyOps} {rest : txOps}
    (h : keysNodup ((k, op) :: rest)) :
    k ∉ rest.map Prod.fst ∧ keysNodup rest := by
  unfold keysNodup at h
  rw [List.map_cons, List.nodup_cons] at h
  exact h

lemma lookupKey_eq_some_iff : ∀ (t : txOps), keysNodup t → ∀ (ck : compositeKey) (op : keyOps),
    (lookupKey t ck = some op ↔ (ck, op) ∈ t)
  | [], _, ck, op => by simp [lookupKey]
  | (k, op') :: rest, hnd, ck, op => by
    obtain ⟨hk, hnd'⟩ := keysNodup_cons hnd
    rw [lookupKey_cons, List.mem_cons]
    by_cases h : k = ck
    · subst h
      rw [if_pos rfl]
      constructor
      · intro hs
        exact Or.inl (by injection hs with hs; rw [hs])
      · intro hmem
        rcases hmem with hh | hh
        · injection hh with h1 h2
          rw [h2]
        · exact absurd (List.mem_map_of_mem Prod.fst hh) hk
    · rw [if_neg h, lookupKey_eq_some_iff rest hnd' ck op]
      constructor
      · intro hmem
        exact Or.inr hmem
      · intro hmem
        rcases hmem with hh | hh
        · injection hh with h1 h2
          exact absurd h1.symm h
        · exact hh

lemma perm_keysNodup {m₁ m₂ : txOps} (hp : List.Perm m₁ m₂) (hnd : keysNodup m₁) :
    keysNodup m₂ := by
  unfold keysNodup at hnd ⊢
  exact ((hp.map Prod.fst).nodup_iff).mp hnd

lemma lookupKey_eq_of_perm {m₁ m₂ : txOps} (hp : List.Perm m₁ m₂) (hnd : keysNodup m₁)
    (ck : compositeKey) : lookupKey m₁ ck = lookupKey m₂ ck := by
  have hnd₂ : keysNodup m₂ := perm_keysNodup hp hnd
  rcases hl : lookupKey m₁ ck with _ | op
  · rw [lookupKey_eq_none_iff] at hl
    symm
    rw [lookupKey_eq_none_iff]
    intro hmem
    exact hl (((hp.map Prod.fst).mem_iff).mpr hmem)
  · rw [lookupKey_eq_some_iff m₁ hnd ck op] at hl
    symm
    rw [lookupKey_eq_some_iff m₂ hnd₂ ck op]
    exact (hp.mem_iff).mp hl

lemma resolveAll_ok_entries (pu : PubAndHashUpdates) (db : DB) :
    ∀ (l out : txOps), resolveAll pu db l = .ok out →
      ∀ p ∈ l, ∃ r, resolveKeyOp pu db p.1 p.2 = .ok r
  | [], _, _, p, hp => absurd hp (List.not_mem_nil p)
  | (ck, kop) :: rest, out, h, p, hp => by
    rcases hro : resolveKeyOp pu db ck kop with e | r
    · rw [resolveAll_cons_error rest hro] at h
      exact Except.noConfusion h
    · rcases List.mem_cons.mp hp with hh | hh
      · exact ⟨r, by rw [hh]; exact hro⟩
      · rcases r with _ | kop'
        · rw [resolveAll_cons_none rest hro] at h
          exact resolveAll_ok_entries pu db rest out h p hh
        · rw [resolveAll_cons_some rest hro] at h
          rcases hrest : resolveAll pu db rest with e' | rest'
          · rw [hrest] at h
            exact Except.noConfusion h
          · exact resolveAll_ok_entries pu db rest rest' hrest p hh

lemma resolveAll_lookup_none (pu : PubAndHashUpdates) (db : DB) (ck : compositeKey) :
    ∀ (l out : txOps), resolveAll pu db l = .ok out →
      lookupKey l ck = none → lookupKey out ck = none
  | [], out, h, _ => by
    rw [resolveAll_nil] at h
    injection h with h
    rw [← h]
    rfl
  | (k, kop) :: rest, out, h, hl => by
    have hne : ¬ k = ck := by
      intro hh
      rw [lookupKey_cons, if_pos hh] at hl
      exact Option.noConfusion hl
    rw [lookupKey_cons, if_neg hne] at hl
    rcases hro : resolveKeyOp pu db k kop with e | r
    · rw [resolveAll_cons_error rest hro] at h
      exact Except.noConfusion h
    · rcases r with _ | kop'
      · rw [resolveAll_cons_none rest hro] at h
        exact resolveAll_lookup_none pu db ck rest out h hl
      · rw [resolveAll_cons_some rest hro] at h
        rcases hrest : resolveAll pu db rest with e' | rest'
        · rw [hrest] at h
          exact Except.noConfusion h
        · rw [hrest] at h
          injection h with h
          rw [← h, lookupKey_cons, if_neg hne]
          exact resolveAll_lookup_none pu db ck rest rest' hrest hl

lemma resolveAll_lookup_some (pu : PubAndHashUpdates) (db : DB) (ck : compositeKey) :
    ∀ (l out : txOps), resolveAll pu db l = .ok out → keysNodup l →
      ∀ kop, lookupKey l ck = some kop →
        (resolveKeyOp pu db ck kop = .ok none → lookupKey out ck = none) ∧
        (∀ kop', resolveKeyOp pu db ck kop = .ok (some kop') → lookupKey out ck = some kop')
  | [], _, _, _, kop, hl => Option.noConfusion hl
  | (k, kop₀) :: rest, out, h, hnd, kop, hl => by
    obtain ⟨hk, hnd'⟩ := keysNodup_cons hnd
    by_cases hce : k = ck
    · subst hce
      rw [lookupKey_cons, if_pos rfl] at hl
      injection hl with hl
      subst hl
      rcases hro : resolveKeyOp pu db k kop₀ with e | r
      · rw [resolveAll_cons_error rest hro] at h
        exact Except.noConfusion h
      · rcases r with _ | kop'
        · rw [resolveAll_cons_none rest hro] at h
          constructor
          · intro _
            have hrest : lookupKey rest k = none := (lookupKey_eq_none_iff rest k).mpr hk
            exact resolveAll_lookup_none pu db k rest out h hrest
          · intro kop' hro'
            injection hro' with hro'
            exact Option.noConfusion hro'
        · rw [resolveAll_cons_some rest hro] at h
          rcases hrest : resolveAll pu db rest with e' | rest'
          · rw [hrest] at h
            exact Except.noConfusion h
          · rw [hrest] at h
            injection h with h
            constructor
            · intro hro'
              injection hro' with hro'
              exact Option.noConfusion hro'
            · intro kop'' hro'
              injection hro' with hro'
              injection hro' with hro'
              rw [← h, lookupKey_cons, if_pos rfl, hro']
    · rw [lookupKey_cons, if_neg hce] at hl
      rcases hro : resolveKeyOp pu db k kop₀ with e | r
      · rw [resolveAll_cons_error rest hro] at h
        exact Except.noConfusion h
      · rcases r with _ | kop₁
        · rw [resolveAll_cons_none rest hro] at h
          exact resolveAll_lookup_some pu db ck rest out h hnd' kop hl
        · rw [resolveAll_cons_some rest hro] at h
          rcases hrest : resolveAll pu db rest with e' | rest'
          · rw [hrest] at h
            exact Except.noConfusion h
          · rw [hrest] at h
            injection h with h
            have ih := resolveAll_lookup_some pu db ck rest rest' hrest hnd' kop hl
            constructor
            · intro hro'
              rw [← h, lookupKey_cons, if_neg hce]
              exact ih.1 hro'
            · intro kop'' hro'
              rw [← h, lookupKey_cons, if_neg hce]
              exact ih.2 kop'' hro'

lemma resolveAll_lookup_rev (pu : PubAndHashUpdates) (db : DB) (ck : compositeKey)
    (l out : txOps) (h : resolveAll pu db l = .ok out) (hnd : keysNodup l)
    (kop' : keyOps) (hl : lookupKey out ck = some kop') :
    ∃ kop, lookupKey l ck = some kop ∧ resolveKeyOp pu db ck kop = .ok (some kop') := by
  rcases hlk : lookupKey l ck with _ | kop
  · rw [resolveAll_lookup_none pu db ck l out h hlk] at hl
    exact Option.noConfusion hl
  · have hco := resolveAll_lookup_some pu db ck l out h hnd kop hlk
    rcases hro : resolveKeyOp pu db ck kop with e | r
    · have hmem : (ck, kop) ∈ l := (lookupKey_eq_some_iff l hnd ck kop).mp hlk
      obtain ⟨r, hr⟩ := resolveAll_ok_entries pu db l out h (ck, kop) hmem
      rw [hro] at hr
      exact Except.noConfusion hr
    · rcases r with _ | kop''
      · rw [hco.1 hro] at hl
        exact Option.noConfusion hl
      · have h2 := hco.2 kop'' hro
        rw [h2] at hl
        injection hl with hl
        exact ⟨kop, rfl, by rw [hro, hl]⟩

lemma resolveAll_keys_sublist (pu : PubAndHashUpdates) (db : DB) :
    ∀ (l out : txOps), resolveAll pu db l = .ok out →
      List.Sublist (out.map Prod.fst) (l.map Prod.fst)
  | [], out, h => by
    rw [resolveAll_nil] at h
    injection h with h
    subst h
    exact List.nil_sublist _
  | (ck, kop) :: rest, out, h => by
    rcases hro : resolveKeyOp pu db ck kop with e | r
    · rw [resolveAll_cons_error rest hro] at h
      exact Except.noConfusion h
    · rcases r with _ | kop'
      · rw [resolveAll_cons_none rest hro] at h
        exact (resolveAll_keys_sublist pu db rest out h).cons ck
      · rw [resolveAll_cons_some rest hro] at h
        rcases hrest : resolveAll pu db rest with e' | rest'
        · rw [hrest] at h
          exact Except.noConfusion h
        · rw [hrest] at h
          injection h with h
          rw [← h, List.map_cons, List.map_cons]
          exact (resolveAll_keys_sublist pu db rest rest' hrest).cons₂ ck

lemma resolveAll_perm_aux (pu : PubAndHashUpdates) (db : DB) {l₁ l₂ : txOps}
    (hp : List.Perm l₁ l₂) :
    exceptIsOk (resolveAll pu db l₁) = exceptIsOk (resolveAll pu db l₂) ∧
    ∀ m₁ m₂, resolveAll pu db l₁ = .ok m₁ → resolveAll pu db l₂ = .ok m₂ →
      List.Perm m₁ m₂ := by
  induction hp with
  | nil =>
    refine ⟨rfl, ?_⟩
    intro m₁ m₂ h₁ h₂
    rw [resolveAll_nil] at h₁ h₂
    injection h₁ with h₁
    injection h₂ with h₂
    rw [← h₁, ← h₂]
  | cons x h ih =>
    obtain ⟨ck, kop⟩ := x
    rename_i la lb
    rcases hro : resolveKeyOp pu db ck kop with e | r
    · rw [resolveAll_cons_error la hro, resolveAll_cons_error lb hro]
      exact ⟨rfl, fun m₁ m₂ h₁ _ => Except.noConfusion h₁⟩
    · rcases r with _ | kop'
      · rw [resolveAll_cons_none la hro, resolveAll_cons_none lb hro]
        exact ih
      · rw [resolveAll_cons_some la hro, resolveAll_cons_some lb hro]
        rcases h₁' : resolveAll pu db la with e₁ | r₁ <;>
          rcases h₂' : resolveAll pu db lb with e₂ | r₂
        · exact ⟨rfl, fun m₁ m₂ h₁ _ => Except.noConfusion h₁⟩
        · have hok := ih.1
          rw [h₁', h₂'] at hok
          exact absurd hok (by simp [exceptIsOk])
        · have hok := ih.1
          rw [h₁', h₂'] at hok
          exact absurd hok (by simp [exceptIsOk])
        · refine ⟨rfl, ?_⟩
          intro m₁ m₂ hm₁ hm₂
          injection hm₁ with hm₁
          injection hm₂ with hm₂
          rw [← hm₁, ← hm₂]
          exact List.Perm.cons _ (ih.2 r₁ r₂ h₁' h₂')
  | swap x y l =>
    obtain ⟨ck₁, kop₁⟩ := x
    obtain ⟨ck₂, kop₂⟩ := y
    rcases hr₁ : resolveKeyOp pu db ck₁ kop₁ with e₁ | r₁ <;>
      rcases hr₂ : resolveKeyOp pu db ck₂ kop₂ with e₂ | r₂
    · -- both error
      rw [resolveAll_cons_error _ hr₂, resolveAll_cons_error _ hr₁]
      exact ⟨rfl, fun m₁ m₂ h₁ _ => Except.noConfusion h₁⟩
    · rcases r₂ with _ | b
      · rw [resolveAll_cons_none _ hr₂, resolveAll_cons_error _ hr₁,
          resolveAll_cons_error _ hr₁]
        exact ⟨rfl, fun m₁ m₂ h₁ _ => Except.noConfusion h₁⟩
      · rw [resolveAll_cons_some _ hr₂, resolveAll_cons_error _ hr₁,
          resolveAll_cons_error _ hr₁]
        exact ⟨rfl, fun m₁ m₂ h₁ _ => Except.noConfusion h₁⟩
    · rcases r₁ with _ | a
      · rw [resolveAll_cons_error _ hr₂, resolveAll_cons_none _ hr₁,
          resolveAll_cons_error _ hr₂]
        exact ⟨rfl, fun m₁ m₂ h₁ _ => Except.noConfusion h₁⟩
      · rw [resolveAll_cons_error _ hr₂, resolveAll_cons_some _ hr₁,
          resolveAll_cons_error _ hr₂]
        exact ⟨rfl, fun m₁ m₂ h₁ _ => Except.noConfusion h₁⟩
    · rcases r₁ with _ | a <;> rcases r₂ with _ | b
      · -- both drop
        rw [resolveAll_cons_none _ hr₂, resolveAll_cons_none _ hr₁,
          resolveAll_cons_none _ hr₁, resolveAll_cons_none _ hr₂]
        refine ⟨rfl, ?_⟩
        intro m₁ m₂ h₁ h₂
        rw [h₁] at h₂
        injection h₂ with h₂
        rw [h₂]
      · -- first kept (y), second dropped (x)
        rw [resolveAll_cons_some _ hr₂, resolveAll_cons_none _ hr₁,
          resolveAll_cons_none _ hr₁, resolveAll_cons_some _ hr₂]
        rcases hrl : resolveAll pu db l with e | r
        · exact ⟨rfl, fun m₁ m₂ h₁ _ => Except.noConfusion h₁⟩
        · refine ⟨rfl, ?_⟩
          intro m₁ m₂ h₁ h₂
          rw [h₁] at h₂
          injection h₂ with h₂
          rw [h₂]
      · -- x kept, y dropped
        rw [resolveAll_cons_none _ hr₂, resolveAll_cons_some _ hr₁,
          resolveAll_cons_some _ hr₁, resolveAll_cons_none _ hr₂]
        rcases hrl : resolveAll pu db l with e | r
        · exact ⟨rfl, fun m₁ m₂ h₁ _ => Except.noConfusion h₁⟩
        · refine ⟨rfl, ?_⟩
          intro m₁ m₂ h₁ h₂
          rw [h₁] at h₂
          injection h₂ with h₂
          rw [h₂]
      · -- both kept: genuine swap
        rw [resolveAll_cons_some _ hr₂, resolveAll_cons_some _ hr₁,
          resolveAll_cons_some _ hr₁, resolveAll_cons_some _ hr₂]
        rcases hrl : resolveAll pu db l with e | r
        · exact ⟨rfl, fun m₁ m₂ h₁ _ => Except.noConfusion h₁⟩
        · refine ⟨rfl, ?_⟩
          intro m₁ m₂ h₁ h₂
          injection h₁ with h₁
          injection h₂ with h₂
          rw [← h₁, ← h₂]
          exact List.Perm.swap _ _ _
  | trans h₁₂ h₂₃ ih₁ ih₂ =>
    rename_i la lb lc
    refine ⟨ih₁.1.trans ih₂.1, ?_⟩
    intro m₁ m₃ hm₁ hm₃
    rcases h₂ : resolveAll pu db lb with e | m₂
    · have hok := ih₁.1
      rw [hm₁, h₂] at hok
      exact absurd hok (by simp [exceptIsOk])
    · exact (ih₁.2 m₁ m₂ hm₁ h₂).trans (ih₂.2 m₂ m₃ h₂ hm₃)

/-! ### Shape lemmas for a single resolution step -/

lemma resolveKeyOp_skip (pu : PubAndHashUpdates) (db : DB) (ck : compositeKey) {kop : keyOps}
    (h : keyOps.isDelete kop = true ∨ keyOps.isUpsertAndMetadataUpdate kop = true) :
    resolveKeyOp pu db ck kop = .ok (some kop) := by
  unfold resolveKeyOp
  rcases h with h | h <;> rw [h] <;> simp

lemma resolveKeyOp_noSkip (pu : PubAndHashUpdates) (db : DB) (ck : compositeKey) {kop : keyOps}
    (hd : keyOps.isDelete kop = false) (hb : keyOps.isUpsertAndMetadataUpdate kop = false) :
    resolveKeyOp pu db ck kop =
      match retrieveLatestState ck.ns ck.coll ck.key pu db with
      | .error e => .error e
      | .ok latestVal =>
        if keyOps.isOnlyUpsert kop then
          match latestVal with
          | some lv => .ok (some { kop with metadata := lv.Metadata })
          | none => .ok (some kop)
        else
          match latestVal with
          | some lv => .ok (some { kop with value := lv.Value })
          | none => .ok none := by
  unfold resolveKeyOp
  rw [hd, hb]
  simp

lemma resolveKeyOp_err (pu : PubAndHashUpdates) (db : DB) (ck : compositeKey) {kop : keyOps}
    {e : Err} (hd : keyOps.isDelete kop = false)
    (hb : keyOps.isUpsertAndMetadataUpdate kop = false)
    (herr : retrieveLatestState ck.ns ck.coll ck.key pu db = .error e) :
    resolveKeyOp pu db ck kop = .error e := by
  rw [resolveKeyOp_noSkip pu db ck hd hb]
  simp [herr]

lemma resolveKeyOp_valueOnly_some (pu : PubAndHashUpdates) (db : DB) (ck : compositeKey)
    {kop : keyOps} {lv : VersionedValue} (hd : keyOps.isDelete kop = false)
    (hb : keyOps.isUpsertAndMetadataUpdate kop = false)
    (hu : keyOps.isOnlyUpsert kop = true)
    (hlat : retrieveLatestState ck.ns ck.coll ck.key pu db = .ok (some lv)) :
    resolveKeyOp pu db ck kop = .ok (some { kop with metadata := lv.Metadata }) := by
  rw [resolveKeyOp_noSkip pu db ck hd hb]
  simp [hlat, hu]

lemma resolveKeyOp_valueOnly_none (pu : PubAndHashUpdates) (db : DB) (ck : compositeKey)
    {kop : keyOps} (hd : keyOps.isDelete kop = false)
    (hb : keyOps.isUpsertAndMetadataUpdate kop = false)
    (hu : keyOps.isOnlyUpsert kop = true)
    (hlat : retrieveLatestState ck.ns ck.coll ck.key pu db = .ok none) :
    resolveKeyOp pu db ck kop = .ok (some kop) := by
  rw [resolveKeyOp_noSkip pu db ck hd hb]
  simp [hlat, hu]

lemma resolveKeyOp_metaOnly_some (pu : PubAndHashUpdates) (db : DB) (ck : compositeKey)
    {kop : keyOps} {lv : VersionedValue} (hd : keyOps.isDelete kop = false)
    (hb : keyOps.isUpsertAndMetadataUpdate kop = false)
    (hu : keyOps.isOnlyUpsert kop = false)
    (hlat : retrieveLatestState ck.ns ck.coll ck.key pu db = .ok (some lv)) :
    resolveKeyOp pu db ck kop = .ok (some { kop with value := lv.Value }) := by
  rw [resolveKeyOp_noSkip pu db ck hd hb]
  simp [hlat, hu]

lemma resolveKeyOp_metaOnly_none (pu : PubAndHashUpdates) (db : DB) (ck : compositeKey)
    {kop : keyOps} (hd : keyOps.isDelete kop = false)
    (hb : keyOps.isUpsertAndMetadataUpdate kop = false)
    (hu : keyOps.isOnlyUpsert kop = false)
    (hlat : retrieveLatestState ck.ns ck.coll ck.key pu db = .ok none) :
    resolveKeyOp pu db ck kop = .ok none := by
  rw [resolveKeyOp_noSkip pu db ck hd hb]
  simp [hlat, hu]

lemma isOnlyUpsert_flags {kop : keyOps} (h : keyOps.isOnlyUpsert kop = true) :
    keyOps.isDelete kop = false ∧ keyOps.isUpsertAndMetadataUpdate kop = false := by
  rcases kop with ⟨f1, f2, f3, f4, v, m⟩
  revert h
  cases f1 <;> cases f2 <;> cases f3 <;> cases f4 <;>
    simp [keyOps.isOnlyUpsert, keyOps.isDelete, keyOps.isUpsertAndMetadataUpdate]

lemma resolveAll_append_error (pu : PubAndHashUpdates) (db : DB) :
    ∀ (l₁ l₂ : txOps) (ck : compositeKey) (kop : keyOps) (e : Err),
      (∀ p ∈ l₁, ∃ r, resolveKeyOp pu db p.1 p.2 = .ok r) →
      resolveKeyOp pu db ck kop = .error e →
      resolveAll pu db (l₁ ++ (ck, kop) :: l₂) = .error e
  | [], l₂, ck, kop, e, _, hko => by
    rw [List.nil_append]
    exact resolveAll_cons_error l₂ hko
  | (k, op) :: rest, l₂, ck, kop, e, hprev, hko => by
    obtain ⟨r, hr⟩ := hprev (k, op) (List.mem_cons_self _ _)
    have ih := resolveAll_append_error pu db rest l₂ ck kop e
      (fun p hp => hprev p (List.mem_cons_of_mem _ hp)) hko
    rcases r with _ | kop'
    · rw [List.cons_append, resolveAll_cons_none _ hr, ih]
    · rw [List.cons_append, resolveAll_cons_some _ hr, ih]

/-! ### Claim theorems -/

/-- C1: the spec claims that a metadata-serialization failure aborts the whole
preparation with the error propagated to the caller of `prepareTxOps`. The code
violates this: `applyMetadata` does return the encoding error (first conjunct), but
`applyTxRwset` drops it at its call sites (src lines 64, 81) and always returns nil
(second conjunct), and `prepareTxOps` discards `applyTxRwset`'s result (src line 21),
so preparation succeeds with the failed metadata write silently dropped (third
conjunct). -/
theorem prepareTxOps_swallows_failed_metadata_serialization :
    applyMetadata codecFail [] nsA [] ⟨keyA, some [entryA]⟩ = .error .encoding ∧
    applyTxRwset codecFail [] rwsetMetaOnly = .ok [] ∧
    prepareTxOps codecFail rwsetMetaOnly ht0 puEmpty dbOk = .ok [] :=
  ⟨rfl, rfl, rfl⟩

/-- C2: `retrieveLatestState` always answers from the preceding-updates index when it
holds the key (for any `db`, so the persisted state reader is not consulted), and
falls back to exactly the corresponding persisted-state read only when the index
reports absence — on the public path for `coll = []` and on the hashed path
otherwise. -/
theorem retrieveLatestState_precedingUpdates_precedence
    (ns coll key : Bytes) (precedingUpdates : PubAndHashUpdates) (db : DB)
    (vv : VersionedValue) :
    (coll = [] → precedingUpdates.PubUpdates.Get ns key = some vv →
      retrieveLatestState ns coll key precedingUpdates db = .ok (some vv)) ∧
    (coll = [] → precedingUpdates.PubUpdates.Get ns key = none →
      retrieveLatestState ns coll key precedingUpdates db = db.GetState ns key) ∧
    (coll ≠ [] → precedingUpdates.HashUpdates.Get ns coll key = some vv →
      retrieveLatestState ns coll key precedingUpdates db = .ok (some vv)) ∧
    (coll ≠ [] → precedingUpdates.HashUpdates.Get ns coll key = none →
      retrieveLatestState ns coll key precedingUpdates db =
        db.GetValueHash ns coll (bytesOfString key)) := by
  refine ⟨?_, ?_, ?_, ?_⟩ <;> intro hc hget <;> unfold retrieveLatestState
  · rw [if_pos hc, hget]
  · rw [if_pos hc, hget]
  · rw [if_neg hc, hget]
  · rw [if_neg hc, hget]

theorem retrieveLatestState_precedingUpdates_precedence_witness :
    retrieveLatestState nsA [] keyA puFull dbOk = .ok (some vvPre) ∧
    retrieveLatestState nsA [] keyA puEmpty dbOk = DB.GetState dbOk nsA keyA ∧
    retrieveLatestState nsA collA keyA puFull dbOk = .ok (some vvPre) ∧
    retrieveLatestState nsA collA keyA puEmpty dbOk =
      DB.GetValueHash dbOk nsA collA (bytesOfString keyA) :=
  ⟨(retrieveLatestState_precedingUpdates_precedence nsA [] keyA puFull dbOk vvPre).1
      rfl rfl,
   (retrieveLatestState_precedingUpdates_precedence nsA [] keyA puEmpty dbOk vvPre).2.1
      rfl rfl,
   (retrieveLatestState_precedingUpdates_precedence nsA collA keyA puFull dbOk
      vvPre).2.2.1 (by decide) rfl,
   (retrieveLatestState_precedingUpdates_precedence nsA collA keyA puEmpty dbOk
      vvPre).2.2.2 (by decide) rfl⟩

/-- C3: a metadata-only entry (not a delete, not both-set, not value-only) is dropped
from the output map when `retrieveLatestState` reports absence, and is kept with the
resolved latest value adopted onto it when a versioned value is found. -/
theorem resolveAll_metadataOnly_drop_or_adopt
    (precedingUpdates : PubAndHashUpdates) (db : DB) (l out : txOps)
    (ck : compositeKey) (kop : keyOps)
    (hnd : keysNodup l) (hok : resolveAll precedingUpdates db l = .ok out)
    (hin : lookupKey l ck = some kop)
    (hd : keyOps.isDelete kop = false)
    (hb : keyOps.isUpsertAndMetadataUpdate kop = false)
    (hu : keyOps.isOnlyUpsert kop = false) :
    (retrieveLatestState ck.ns ck.coll ck.key precedingUpdates db = .ok none →
      lookupKey out ck = none) ∧
    (∀ lv, retrieveLatestState ck.ns ck.coll ck.key precedingUpdates db = .ok (some lv) →
      lookupKey out ck = some { kop with value := lv.Value }) := by
  have hco := resolveAll_lookup_some precedingUpdates db ck l out hok hnd kop hin
  constructor
  · intro hlat
    exact hco.1 (resolveKeyOp_metaOnly_none precedingUpdates db ck hd hb hu hlat)
  · intro lv hlat
    exact hco.2 _ (resolveKeyOp_metaOnly_some precedingUpdates db ck hd hb hu hlat)

theorem resolveAll_metadataOnly_drop_or_adopt_witness :
    lookupKey ([] : txOps) ckPub = none ∧
    lookupKey [(ckPub, { opMetaOnly with value := vvDb.Value })] ckPub =
      some { opMetaOnly with value := vvDb.Value } :=
  ⟨(resolveAll_metadataOnly_drop_or_adopt puEmpty dbEmpty [(ckPub, opMetaOnly)] []
      ckPub opMetaOnly (by decide) rfl rfl rfl rfl rfl).1 rfl,
   (resolveAll_metadataOnly_drop_or_adopt puEmpty dbOk [(ckPub, opMetaOnly)]
      [(ckPub, { opMetaOnly with value := vvDb.Value })] ckPub opMetaOnly
      (by decide) rfl rfl rfl rfl rfl).2 vvDb rfl⟩

/-- C4: if the map populated from the write set contains an entry that needs
resolution (not a delete, not both-set) whose `retrieveLatestState` lookup fails,
and every entry iterated before it resolves without error, then `prepareTxOps`
returns exactly that error and no map. -/
theorem prepareTxOps_lookup_error_propagation
    (serializeMetadata : metadataCodec) (rwset : TxRwSet) (txht : Height)
    (precedingUpdates : PubAndHashUpdates) (db : DB)
    (l₁ l₂ : txOps) (ck : compositeKey) (kop : keyOps) (e : Err)
    (hpop : populatedTxOps serializeMetadata rwset = l₁ ++ (ck, kop) :: l₂)
    (hprev : ∀ p ∈ l₁, ∃ r, resolveKeyOp precedingUpdates db p.1 p.2 = .ok r)
    (hd : keyOps.isDelete kop = false)
    (hb : keyOps.isUpsertAndMetadataUpdate kop = false)
    (herr : retrieveLatestState ck.ns ck.coll ck.key precedingUpdates db = .error e) :
    prepareTxOps serializeMetadata rwset txht precedingUpdates db = .error e := by
  unfold prepareTxOps
  rw [hpop]
  exact resolveAll_append_error precedingUpdates db l₁ l₂ ck kop e hprev
    (resolveKeyOp_err precedingUpdates db ck hd hb herr)

theorem prepareTxOps_lookup_error_propagation_witness :
    prepareTxOps codecOk rwsetMetaOnly ht0 puEmpty dbErr = .error .storage :=
  prepareTxOps_lookup_error_propagation codecOk rwsetMetaOnly ht0 puEmpty dbErr [] []
    ckPub opMD .storage rfl
    (by intro p hp; exact absurd hp (List.not_mem_nil p)) rfl rfl rfl

/-- C5: a value-only entry adopts the metadata of the resolved latest state, keeping
its own value; when the lookup reports absence the entry is kept unchanged (so with
no metadata) — value-only entries are never dropped. -/
theorem resolveAll_valueOnly_adopts_metadata
    (precedingUpdates : PubAndHashUpdates) (db : DB) (l out : txOps)
    (ck : compositeKey) (kop : keyOps)
    (hnd : keysNodup l) (hok : resolveAll precedingUpdates db l = .ok out)
    (hin : lookupKey l ck = some kop)
    (hu : keyOps.isOnlyUpsert kop = true) :
    (∀ lv, retrieveLatestState ck.ns ck.coll ck.key precedingUpdates db = .ok (some lv) →
      lookupKey out ck = some { kop with metadata := lv.Metadata }) ∧
    (retrieveLatestState ck.ns ck.coll ck.key precedingUpdates db = .ok none →
      lookupKey out ck = some kop) := by
  obtain ⟨hd, hb⟩ := isOnlyUpsert_flags hu
  have hco := resolveAll_lookup_some precedingUpdates db ck l out hok hnd kop hin
  constructor
  · intro lv hlat
    exact hco.2 _ (resolveKeyOp_valueOnly_some precedingUpdates db ck hd hb hu hlat)
  · intro hlat
    exact hco.2 _ (resolveKeyOp_valueOnly_none precedingUpdates db ck hd hb hu hlat)

theorem resolveAll_valueOnly_adopts_metadata_witness :
    lookupKey [(ckPub, { opValueOnly with metadata := vvDb.Metadata })] ckPub =
      some { opValueOnly with metadata := vvDb.Metadata } ∧
    lookupKey [(ckPub, opValueOnly)] ckPub = some opValueOnly :=
  ⟨(resolveAll_valueOnly_adopts_metadata puEmpty dbOk [(ckPub, opValueOnly)]
      [(ckPub, { opValueOnly with metadata := vvDb.Metadata })] ckPub opValueOnly
      (by decide) rfl rfl rfl).1 vvDb rfl,
   (resolveAll_valueOnly_adopts_metadata puEmpty dbEmpty [(ckPub, opValueOnly)]
      [(ckPub, opValueOnly)] ckPub opValueOnly (by decide) rfl rfl rfl).2 rfl⟩

/-- C6: an entry that is a delete, or whose value and metadata were both set by the
transaction, passes through resolution unchanged, and its per-entry resolution step
returns it unchanged for every preceding-updates index and every persisted state
reader — no lookup is performed. -/
theorem resolveAll_skip_delete_and_both_set
    (precedingUpdates : PubAndHashUpdates) (db : DB) (l out : txOps)
    (ck : compositeKey) (kop : keyOps)
    (hnd : keysNodup l) (hok : resolveAll precedingUpdates db l = .ok out)
    (hin : lookupKey l ck = some kop)
    (h : keyOps.isDelete kop = true ∨ keyOps.isUpsertAndMetadataUpdate kop = true) :
    lookupKey out ck = some kop ∧
    ∀ (pu' : PubAndHashUpdates) (db' : DB),
      resolveKeyOp pu' db' ck kop = .ok (some kop) := by
  have hco := resolveAll_lookup_some precedingUpdates db ck l out hok hnd kop hin
  exact ⟨hco.2 kop (resolveKeyOp_skip precedingUpdates db ck h),
    fun pu' db' => resolveKeyOp_skip pu' db' ck h⟩

theorem resolveAll_skip_delete_and_both_set_witness :
    lookupKey [(ckPub, opDelete)] ckPub = some opDelete ∧
    resolveKeyOp puDel dbErr ckPub opDelete = .ok (some opDelete) :=
  ⟨(resolveAll_skip_delete_and_both_set puFull dbErr [(ckPub, opDelete)]
      [(ckPub, opDelete)] ckPub opDelete (by decide) rfl rfl (Or.inl rfl)).1,
   (resolveAll_skip_delete_and_both_set puFull dbErr [(ckPub, opDelete)]
      [(ckPub, opDelete)] ckPub opDelete (by decide) rfl rfl (Or.inl rfl)).2
      puDel dbErr⟩

/-- C7: completeness — every non-delete entry of a successfully resolved map has both
fields explicitly accounted for: each of its value and metadata is either the bytes
the transaction itself put in the corresponding input entry, or the bytes carried
forward from the resolved latest state (explicitly-absent metadata included, since
the carried fields may be `none`). -/
theorem resolveAll_completeness
    (precedingUpdates : PubAndHashUpdates) (db : DB) (l out : txOps)
    (hnd : keysNodup l) (hok : resolveAll precedingUpdates db l = .ok out) :
    ∀ ck kop', lookupKey out ck = some kop' → keyOps.isDelete kop' = false →
      ∃ kop, lookupKey l ck = some kop ∧
        (kop'.value = kop.value ∨
          ∃ lv, retrieveLatestState ck.ns ck.coll ck.key precedingUpdates db =
              .ok (some lv) ∧ kop'.value = lv.Value) ∧
        (kop'.metadata = kop.metadata ∨
          ∃ lv, retrieveLatestState ck.ns ck.coll ck.key precedingUpdates db =
              .ok (some lv) ∧ kop'.metadata = lv.Metadata) := by
  intro ck kop' hlk _
  obtain ⟨kop, hin, hro⟩ :=
    resolveAll_lookup_rev precedingUpdates db ck l out hok hnd kop' hlk
  refine ⟨kop, hin, ?_⟩
  by_cases hskip :
      (keyOps.isDelete kop || keyOps.isUpsertAndMetadataUpdate kop) = true
  · rw [resolveKeyOp_skip precedingUpdates db ck
      (by rw [Bool.or_eq_true] at hskip; exact hskip)] at hro
    injection hro with hro
    injection hro with hro
    subst hro
    exact ⟨Or.inl rfl, Or.inl rfl⟩
  · have hd : keyOps.isDelete kop = false := by
      cases hdd : keyOps.isDelete kop
      · rfl
      · exact absurd (by rw [hdd, Bool.true_or]) hskip
    have hb : keyOps.isUpsertAndMetadataUpdate kop = false := by
      cases hbb : keyOps.isUpsertAndMetadataUpdate kop
      · rfl
      · exact absurd (by rw [hbb, Bool.or_true]) hskip
    rcases hlat : retrieveLatestState ck.ns ck.coll ck.key precedingUpdates db
      with e | latest
    · rw [resolveKeyOp_err precedingUpdates db ck hd hb hlat] at hro
      exact Except.noConfusion hro
    · rcases latest with _ | lv
      · by_cases hu : keyOps.isOnlyUpsert kop = true
        · rw [resolveKeyOp_valueOnly_none precedingUpdates db ck hd hb hu hlat] at hro
          injection hro with hro
          injection hro with hro
          subst hro
          exact ⟨Or.inl rfl, Or.inl rfl⟩
        · rw [Bool.not_eq_true] at hu
          rw [resolveKeyOp_metaOnly_none precedingUpdates db ck hd hb hu hlat] at hro
          injection hro with hro
          exact Option.noConfusion hro
      · by_cases hu : keyOps.isOnlyUpsert kop = true
        · rw [resolveKeyOp_valueOnly_some precedingUpdates db ck hd hb hu hlat] at hro
          injection hro with hro
          injection hro with hro
          subst hro
          exact ⟨Or.inl rfl, Or.inr ⟨lv, rfl, rfl⟩⟩
        · rw [Bool.not_eq_true] at hu
          rw [resolveKeyOp_metaOnly_some precedingUpdates db ck hd hb hu hlat] at hro
          injection hro with hro
          injection hro with hro
          subst hro
          exact ⟨Or.inr ⟨lv, rfl, rfl⟩, Or.inl rfl⟩

theorem resolveAll_completeness_witness :
    ∃ kop, lookupKey [(ckPub, opValueOnly)] ckPub = some kop ∧
      (opValueOnlyRes.value = kop.value ∨
        ∃ lv, retrieveLatestState ckPub.ns ckPub.coll ckPub.key puEmpty dbOk =
            .ok (some lv) ∧ opValueOnlyRes.value = lv.Value) ∧
      (opValueOnlyRes.metadata = kop.metadata ∨
        ∃ lv, retrieveLatestState ckPub.ns ckPub.coll ckPub.key puEmpty dbOk =
            .ok (some lv) ∧ opValueOnlyRes.metadata = lv.Metadata) :=
  resolveAll_completeness puEmpty dbOk [(ckPub, opValueOnly)] outValueOnly
    (by decide) rfl ckPub opValueOnlyRes rfl rfl

/-- C8: the resolution pass is order-independent: on permuted entry lists (the model
of Go's arbitrary map-iteration order) it succeeds on one order iff it succeeds on
the other, and the successful outputs are identical as maps (a permutation of one
another, with equal lookups at every composite key). Determinism for a fixed order
is inherent: `resolveAll` is a pure function of its arguments. -/
theorem resolveAll_order_independent
    (precedingUpdates : PubAndHashUpdates) (db : DB) (l₁ l₂ : txOps)
    (hp : List.Perm l₁ l₂) (hnd : keysNodup l₁) :
    exceptIsOk (resolveAll precedingUpdates db l₁) =
      exceptIsOk (resolveAll precedingUpdates db l₂) ∧
    ∀ m₁ m₂, resolveAll precedingUpdates db l₁ = .ok m₁ →
      resolveAll precedingUpdates db l₂ = .ok m₂ →
      List.Perm m₁ m₂ ∧ ∀ ck, lookupKey m₁ ck = lookupKey m₂ ck := by
  have aux := resolveAll_perm_aux precedingUpdates db hp
  refine ⟨aux.1, ?_⟩
  intro m₁ m₂ h₁ h₂
  have hpm := aux.2 m₁ m₂ h₁ h₂
  have hnd₁ : keysNodup m₁ :=
    List.Nodup.sublist (resolveAll_keys_sublist precedingUpdates db l₁ m₁ h₁) hnd
  exact ⟨hpm, fun ck => lookupKey_eq_of_perm hpm hnd₁ ck⟩

theorem resolveAll_order_independent_witness :
    exceptIsOk (resolveAll puEmpty dbOk lA) = exceptIsOk (resolveAll puEmpty dbOk lB) ∧
    List.Perm mA mB ∧ lookupKey mA ckPub = lookupKey mB ckPub := by
  have hp : List.Perm lA lB :=
    List.Perm.swap (ckHash, opMetaOnly) (ckPub, opValueOnly) []
  have h := resolveAll_order_independent puEmpty dbOk lA lB hp (by decide)
  exact ⟨h.1, (h.2 mA mB rfl rfl).1, (h.2 mA mB rfl rfl).2 ckPub⟩

/-- C9: the drop decision for a metadata-only entry only tests whether a versioned
value exists at all: when the lookup returns a versioned value whose value field is
nil (e.g. a deletion recorded by an earlier transaction in the block), the entry is
kept in the output with a nil value rather than discarded. -/
theorem resolveAll_metadataOnly_keeps_recorded_delete
    (precedingUpdates : PubAndHashUpdates) (db : DB) (l out : txOps)
    (ck : compositeKey) (kop : keyOps)
    (hnd : keysNodup l) (hok : resolveAll precedingUpdates db l = .ok out)
    (hin : lookupKey l ck = some kop)
    (hd : keyOps.isDelete kop = false)
    (hb : keyOps.isUpsertAndMetadataUpdate kop = false)
    (hu : keyOps.isOnlyUpsert kop = false)
    (lv : VersionedValue)
    (hlat : retrieveLatestState ck.ns ck.coll ck.key precedingUpdates db =
      .ok (some lv))
    (hnil : lv.Value = none) :
    lookupKey out ck = some { kop with value := none } := by
  have hco := resolveAll_lookup_some precedingUpdates db ck l out hok hnd kop hin
  have hkeep := hco.2 { kop with value := lv.Value }
    (resolveKeyOp_metaOnly_some precedingUpdates db ck hd hb hu hlat)
  rwa [hnil] at hkeep

theorem resolveAll_metadataOnly_keeps_recorded_delete_witness :
    lookupKey [(ckPub, opMetaOnly)] ckPub = some { opMetaOnly with value := none } :=
  resolveAll_metadataOnly_keeps_recorded_delete puDel dbErr [(ckPub, opMetaOnly)]
    [(ckPub, opMetaOnly)] ckPub opMetaOnly (by decide) rfl rfl rfl rfl rfl
    vvDel rfl rfl

/-- C10: the keyHash of a hashed write is turned into a string to form the composite
key and turned back into bytes for the persisted-state lookup; the round-trip is the
identity on the bytes, so on a preceding-updates miss `retrieveLatestState` queries
`GetValueHash` with exactly the keyHash bytes of the transaction's hashed write. -/
theorem retrieveLatestState_keyHash_roundtrip
    (ns coll keyHash : Bytes) (precedingUpdates : PubAndHashUpdates) (db : DB)
    (hcoll : coll ≠ [])
    (hmiss : precedingUpdates.HashUpdates.Get ns coll (stringOfBytes keyHash) = none) :
    bytesOfString (stringOfBytes keyHash) = keyHash ∧
    retrieveLatestState ns coll (stringOfBytes keyHash) precedingUpdates db =
      db.GetValueHash ns coll keyHash := by
  refine ⟨rfl, ?_⟩
  unfold retrieveLatestState
  rw [if_neg hcoll, hmiss]
  rfl

theorem retrieveLatestState_keyHash_roundtrip_witness :
    bytesOfString (stringOfBytes keyA) = keyA ∧
    retrieveLatestState nsA collA (stringOfBytes keyA) puEmpty dbOk =
      DB.GetValueHash dbOk nsA collA keyA :=
  retrieveLatestState_keyHash_roundtrip nsA collA keyA puEmpty dbOk (by decide) rfl
